import Mathlib

/-!
Shallow embedding of the repolex-forx-tools scripts
(`scripts/queue_manager.py`, `scripts/discover_versions.py`,
`scripts/update_manifest.py`, `scripts/find_next_work.py`) and proofs of
properties of the work-scheduling state machine they implement.

Files on disk are modelled by values: `queue.txt` as an optional list of
lines (absent file = `none`), `manifest.json` as an optional `Manifest`
value. Dates and timestamps are opaque strings passed in as parameters
(the scripts obtain them from `datetime.utcnow()`).
-/

/-! ### Data model (the JSON shapes of manifest.json) -/

/-- One entry of a repository record field `parsed_tags`
(see `update_manifest.py`, `mark_parsed`, the dict `entry`). -/
structure ParsedTagRecord where
  tag : String
  commit_sha : String
  parsed_at : String
  storage_repo : String
  deps_graph : Option String
  parse_status : String
deriving DecidableEq

/-- One value of the `repos` mapping of manifest.json. -/
structure RepoRecord where
  added_at : String
  priority : Int
  parsed_tags : List ParsedTagRecord
  discovered_tags : Option (List String)
  total_tags : Nat
  parsed_count : Nat
  last_parsed : Option String
deriving DecidableEq

/-- The `stats` block of manifest.json. `total_tags_pending` is an `Int`
because Python computes `total_tags - parsed_count`, which can be negative
when tags outside `discovered_tags` have been marked parsed. -/
structure Stats where
  total_repos : Nat
  total_tags_parsed : Nat
  total_tags_pending : Int
deriving DecidableEq

/-- The whole manifest.json document. The `repos` JSON object is modelled
as an association list in insertion order (Python dicts preserve insertion
order). -/
structure Manifest where
  version : String
  last_updated : String
  repos : List (String × RepoRecord)
  stats : Stats
deriving DecidableEq

/-- Lookup in the `repos` mapping (`manifest["repos"][org_repo]` or the
membership test `org_repo in manifest["repos"]`). -/
def lookupRepo : List (String × RepoRecord) → String → Option RepoRecord
  | [], _ => none
  | (k, v) :: rest, key => if k = key then some v else lookupRepo rest key

/-- Assignment `manifest["repos"][org_repo] = data` on a Python dict:
overwrite in place when the key exists (keeping its position), append
otherwise. -/
def updateRepo : List (String × RepoRecord) → String → RepoRecord → List (String × RepoRecord)
  | [], key, v => [(key, v)]
  | (k, v0) :: rest, key, v => if k = key then (k, v) :: rest else (k, v0) :: updateRepo rest key v

/-- The stats recomputation performed inside every `save_manifest`
(identical in all three scripts that define it). -/
def computeStats (repos : List (String × RepoRecord)) : Stats :=
  { total_repos := repos.length
    total_tags_parsed := (repos.map (fun r => r.2.parsed_count)).sum
    total_tags_pending := (repos.map (fun r => (r.2.total_tags : Int) - (r.2.parsed_count : Int))).sum }

/-- `save_manifest`: sets `last_updated` to the current time, recomputes
`stats`, and atomically replaces manifest.json with the new value. The
value written is the returned manifest. -/
def save_manifest (m : Manifest) (now : String) : Manifest :=
  { m with last_updated := now, stats := computeStats m.repos }

/-- The fresh manifest built by `queue_manager.load_manifest` when
manifest.json does not exist. -/
def freshManifest (now : String) : Manifest :=
  { version := "1.0"
    last_updated := now
    repos := []
    stats := { total_repos := 0, total_tags_parsed := 0, total_tags_pending := 0 } }

/-! ### Python string primitives, modelled on character lists -/

/-- Python `str.strip()` on the underlying characters: drop whitespace from
both ends (ASCII whitespace; the scripts only meet ASCII here). -/
def stripChars (cs : List Char) : List Char :=
  ((cs.dropWhile Char.isWhitespace).reverse.dropWhile Char.isWhitespace).reverse

/-- Python `line.strip()`. -/
def pyStrip (s : String) : String :=
  String.mk (stripChars s.data)

/-- Python `line.startswith("#")`. -/
def startsHash (s : String) : Bool :=
  match s.data with
  | [] => false
  | c :: _ => c == '#'

/-- Python `tag.lstrip("v")`: removes every leading `v` character, not just
one. -/
def pyLstripV (s : String) : String :=
  String.mk (s.data.dropWhile (fun c => c == 'v'))

/-- Python `org_repo.replace("/", "--")`. -/
def replaceSlashes (s : String) : String :=
  String.mk (s.data.foldr (fun c acc => if c = '/' then '-' :: '-' :: acc else c :: acc) [])

/-! ### queue_manager.py -/

namespace QueueManager

/-- `queue_manager.load_manifest`: returns a fresh bootstrap manifest when
the file is absent, otherwise the stored document. -/
def load_manifest (file : Option Manifest) (now : String) : Manifest :=
  match file with
  | none => freshManifest now
  | some m => m

/-- `queue_manager.load_queue`: absent file gives an empty queue; otherwise
every line is stripped of surrounding whitespace and blank lines and
comment lines (starting with a hash) are dropped. -/
def load_queue (file : Option (List String)) : List String :=
  match file with
  | none => []
  | some lines =>
      (lines.map pyStrip).filter (fun l => !(l == "") && !(startsHash l))

/-- The header lines `queue_manager.save_queue` writes before the repo
lines (the last write adds one blank line). -/
def queueHeader : List String :=
  ["# repolex-forx parsing queue",
   "# One repo per line: org/repo",
   "# Lines starting with # are comments",
   "# Empty lines ignored",
   ""]

/-- `queue_manager.save_queue`: the resulting lines of queue.txt. -/
def save_queue (repos : List String) : List String :=
  queueHeader ++ repos

/-- The two files queue_manager mutates. -/
structure QMState where
  queueFile : Option (List String)
  manifestFile : Option Manifest
deriving DecidableEq

/-- `queue_manager.add_repo`. The queue half appends `org_repo` when not
yet present and saves queue.txt. The manifest half then evaluates the
record literal at queue_manager.py line 95, which contains the bare name
`null` (not defined anywhere in Python), so for a repository absent from
the manifest the script raises `NameError` after the queue write and never
creates the record nor saves the manifest; for a repository already in the
manifest it finishes normally. -/
def add_repo (st : QMState) (org_repo : String) (priority : Int) (now : String) :
    QMState × Except String Unit :=
  let manifest := load_manifest st.manifestFile now
  let queue := load_queue st.queueFile
  let st1 :=
    if org_repo ∈ queue then st
    else { st with queueFile := some (save_queue (queue ++ [org_repo])) }
  match lookupRepo manifest.repos org_repo with
  | some _ => (st1, Except.ok ())
  | none => (st1, Except.error "NameError: name null is not defined")

end QueueManager

/-! ### discover_versions.py -/

namespace DiscoverVersions

/-- `discover_versions.load_manifest`: plain `open` of manifest.json, so an
absent file raises `FileNotFoundError`. -/
def load_manifest (file : Option Manifest) : Except String Manifest :=
  match file with
  | none => Except.error "FileNotFoundError: manifest.json"
  | some m => Except.ok m

/-- Splitting a character list at every dot, the shape the anchored regex
`(\d+)\.(\d+)\.(\d+)` sees: the regex matches exactly when the split has
three groups, each nonempty and all digits. -/
def splitDots : List Char → List (List Char)
  | [] => [[]]
  | c :: rest =>
      if c = '.' then [] :: splitDots rest
      else
        match splitDots rest with
        | [] => [[c]]
        | g :: gs => (c :: g) :: gs

/-- One regex group `(\d+)`: nonempty, decimal digits only. -/
def isDigitGroup (cs : List Char) : Bool :=
  !cs.isEmpty && cs.all Char.isDigit

/-- Decimal value of a digit group. -/
def digitsToNat (cs : List Char) : Nat :=
  cs.foldl (fun n c => n * 10 + (c.toNat - 48)) 0

/-- The anchored match of `^(\d+)\.(\d+)\.(\d+)$` together with the numeric
value of the three groups; `none` when the regex does not match. This is
also how `packaging.version.parse` reads the strict triples that reach
`select_versions_smart` (major, minor, micro). -/
def parseSemver (s : String) : Option (Nat × Nat × Nat) :=
  match splitDots s.data with
  | [a, b, c] =>
      if isDigitGroup a && isDigitGroup b && isDigitGroup c then
        some (digitsToNat a, digitsToNat b, digitsToNat c)
      else none
  | _ => none

/-- `discover_versions.filter_semver_tags`: strip every leading `v`, keep
the stripped string when it matches the strict `X.Y.Z` regex. -/
def filter_semver_tags : List String → List String
  | [] => []
  | tag :: rest =>
      let clean_tag := pyLstripV tag
      if (parseSemver clean_tag).isSome then clean_tag :: filter_semver_tags rest
      else filter_semver_tags rest

/-- Numeric semantic-version order on parsed triples (the order
`packaging.version` uses for strict `X.Y.Z` strings): lexicographic on
(major, minor, patch). Strict form. -/
def vLt (a b : Nat × Nat × Nat) : Prop :=
  a.1 < b.1 ∨ (a.1 = b.1 ∧ (a.2.1 < b.2.1 ∨ (a.2.1 = b.2.1 ∧ a.2.2 < b.2.2)))

/-- Non-strict numeric semantic-version order on parsed triples. -/
def vLe (a b : Nat × Nat × Nat) : Prop :=
  a.1 < b.1 ∨ (a.1 = b.1 ∧ (a.2.1 < b.2.1 ∨ (a.2.1 = b.2.1 ∧ a.2.2 ≤ b.2.2)))

instance : DecidableRel vLt := fun a b => by unfold vLt; infer_instance

instance : DecidableRel vLe := fun a b => by unfold vLe; infer_instance

/-- The sort key `version.parse(tag)` of a tag string that already passed
the semver filter (unreachable default for strings the filter rejects). -/
def verKey (s : String) : Nat × Nat × Nat :=
  (parseSemver s).getD (0, 0, 0)

/-- The grouping key `(v.major, v.minor)` of a filtered tag. -/
def mmOf (s : String) : Option (Nat × Nat) :=
  (parseSemver s).map (fun v => (v.1, v.2.1))

/-- Appending a tag to the group of its `(major, minor)` key inside the
insertion-ordered `defaultdict(list)` of `select_versions_smart`. -/
def addToGroup (k : Nat × Nat) (t : String) :
    List ((Nat × Nat) × List String) → List ((Nat × Nat) × List String)
  | [] => [(k, [t])]
  | (k0, ts) :: rest =>
      if k0 = k then (k0, ts ++ [t]) :: rest
      else (k0, ts) :: addToGroup k t rest

/-- The `by_major_minor` dict of `select_versions_smart`, as an ordered
association list. A tag the version parser rejects would make the Python
code raise inside `version.parse`; the embedding skips it, which is
unreachable for the filtered inputs the function is specified on. -/
def groupTags (tags : List String) : List ((Nat × Nat) × List String) :=
  tags.foldl
    (fun gs t =>
      match parseSemver t with
      | some v => addToGroup (v.1, v.2.1) t gs
      | none => gs)
    []

/-- Python `max(versions, key=version.parse)`: scan left to right, replace
the current best only on strictly greater key (so the first maximal element
wins); `none` on an empty list (Python would raise, unreachable because
groups are never empty). -/
def pyMaxByVer (ts : List String) : Option String :=
  match ts with
  | [] => none
  | t :: rest =>
      some (rest.foldl (fun cur x => if vLt (verKey cur) (verKey x) then x else cur) t)

/-- The comparison `sorted(result, key=version.parse)` sorts by. -/
def tagLe (a b : String) : Prop :=
  vLe (verKey a) (verKey b)

instance : DecidableRel tagLe := fun a b => by unfold tagLe; infer_instance

/-- `discover_versions.select_versions_smart`: group the filtered tags by
`(major, minor)`, keep the maximum-version member of each group, and sort
the representatives by version (Python `sorted` is a stable sort, modelled
by insertion sort). -/
def select_versions_smart (tags : List String) : List String :=
  List.insertionSort tagLe ((groupTags tags).filterMap (fun g => pyMaxByVer g.2))

end DiscoverVersions

/-! ### update_manifest.py -/

namespace UpdateManifest

/-- `update_manifest.load_manifest`: plain `open` of manifest.json, so an
absent file raises `FileNotFoundError`. -/
def load_manifest (file : Option Manifest) : Except String Manifest :=
  match file with
  | none => Except.error "FileNotFoundError: manifest.json"
  | some m => Except.ok m

/-- What a `mark_parsed` call produces: the manifest that is on disk when
the call finishes, whether the duplicate early-return was taken, and the
`all_tags_parsed` workflow signal (absent on the early return, which
prints no signal). -/
structure MarkOutcome where
  manifest : Manifest
  alreadyParsed : Bool
  allParsed : Option Bool
deriving DecidableEq

/-- `update_manifest.mark_parsed`. Unknown repository: `sys.exit(1)`,
modelled as an error, nothing saved. Tag already among the parsed tags:
early return before any mutation, nothing saved. Otherwise: append the
new `ParsedTagRecord`, set `parsed_count = len(parsed_tags)` and
`last_parsed`, save (which recomputes stats and `last_updated`), and emit
`all_tags_parsed = (parsed_count >= total_tags)`. -/
def mark_parsed (m : Manifest) (org_repo tag commit_sha : String)
    (storage_repo : Option String) (today now : String) : Except String MarkOutcome :=
  match lookupRepo m.repos org_repo with
  | none => Except.error ("Repo " ++ org_repo ++ " not in manifest")
  | some repo_data =>
      if tag ∈ repo_data.parsed_tags.map ParsedTagRecord.tag then
        Except.ok { manifest := m, alreadyParsed := true, allParsed := none }
      else
        let storage := storage_repo.getD ("repolex-forx/" ++ replaceSlashes org_repo)
        let entry : ParsedTagRecord :=
          { tag := tag, commit_sha := commit_sha, parsed_at := today
            storage_repo := storage, deps_graph := none, parse_status := "complete" }
        let newData : RepoRecord :=
          { repo_data with
              parsed_tags := repo_data.parsed_tags ++ [entry]
              parsed_count := (repo_data.parsed_tags ++ [entry]).length
              last_parsed := some today }
        let m1 := save_manifest { m with repos := updateRepo m.repos org_repo newData } now
        Except.ok
          { manifest := m1, alreadyParsed := false
            allParsed := some (decide (newData.total_tags ≤ newData.parsed_count)) }

/-- The manifest.json content after a `mark_parsed` invocation against the
given on-disk manifest: unchanged whenever the call errors out. -/
def diskAfter (m : Manifest) (org_repo tag commit_sha : String)
    (storage_repo : Option String) (today now : String) : Manifest :=
  match mark_parsed m org_repo tag commit_sha storage_repo today now with
  | Except.error _ => m
  | Except.ok o => o.manifest

/-- Repeated invocation of `mark_parsed` with the same arguments,
threading the on-disk manifest. -/
def markParsedIter (org_repo tag commit_sha : String) (storage_repo : Option String)
    (today now : String) : Nat → Manifest → Except String Manifest
  | 0, m => Except.ok m
  | n + 1, m =>
      match mark_parsed m org_repo tag commit_sha storage_repo today now with
      | Except.error e => Except.error e
      | Except.ok o => markParsedIter org_repo tag commit_sha storage_repo today now n o.manifest

end UpdateManifest

/-! ### find_next_work.py -/

namespace FindNextWork

/-- The classification `find_next_repo` assigns to a queue entry with
pending work. -/
inductive WorkType where
  | isNew
  | discover
  | parse
deriving DecidableEq

/-- A candidate triple `(org_repo, last_parsed, work_type)` as built by
`find_next_repo`. -/
abbrev Cand := String × Option String × WorkType

/-- The `repos_with_work` list of `find_next_repo`: walk the queue in
order; a repository absent from the manifest is a discovery candidate of
kind `new` (with no `last_parsed`); one with the `discovered_tags`
sentinel still null is a `discover` candidate; one with
`parsed_count < total_tags` is a `parse` candidate; a fully parsed
repository is skipped. -/
def repos_with_work (m : Manifest) : List String → List Cand
  | [] => []
  | org_repo :: rest =>
      match lookupRepo m.repos org_repo with
      | none => (org_repo, none, WorkType.isNew) :: repos_with_work m rest
      | some data =>
          match data.discovered_tags with
          | none => (org_repo, data.last_parsed, WorkType.discover) :: repos_with_work m rest
          | some _ =>
              if data.parsed_count < data.total_tags then
                (org_repo, data.last_parsed, WorkType.parse) :: repos_with_work m rest
              else repos_with_work m rest

/-- The `sort_key` of `find_next_repo`: `(0, "")` for a candidate never
parsed, `(1, last_parsed)` otherwise; tuples compare lexicographically. -/
def sortKey (c : Cand) : Nat × String :=
  match c.2.1 with
  | none => (0, "")
  | some d => (1, d)

/-- Lexicographic comparison of Python `(int, str)` sort keys. -/
def keyLe (a b : Nat × String) : Prop :=
  a.1 < b.1 ∨ (a.1 = b.1 ∧ a.2 ≤ b.2)

instance : DecidableRel keyLe := fun a b => by unfold keyLe; infer_instance

/-- The candidate order `repos_with_work.sort(key=sort_key)` sorts by. -/
def candLe (c d : Cand) : Prop :=
  keyLe (sortKey c) (sortKey d)

instance : DecidableRel candLe := fun c d => by unfold candLe; infer_instance

/-- The candidate list after the stable `list.sort(key=sort_key)`. -/
def rankedCandidates (m : Manifest) (queue : List String) : List Cand :=
  List.insertionSort candLe (repos_with_work m queue)

/-- `find_next_work.find_next_repo`: `None` when no candidate has work,
otherwise the repository of the first candidate after the stable sort. -/
def find_next_repo (queue : List String) (m : Manifest) : Option String :=
  match rankedCandidates m queue with
  | [] => none
  | c :: _ => some c.1

/-- `find_next_work.find_next_tag`: `None` for an unknown or undiscovered
repository, otherwise the first entry of `discovered_tags` that is not
among the already-parsed tags. -/
def find_next_tag (org_repo : String) (m : Manifest) : Option String :=
  match lookupRepo m.repos org_repo with
  | none => none
  | some data =>
      match data.discovered_tags with
      | none => none
      | some dts =>
          dts.find? (fun tag => !(data.parsed_tags.map ParsedTagRecord.tag).contains tag)

end FindNextWork

/-! ### Helper lemmas about the repos mapping -/

theorem lookup_updateRepo_self (repos : List (String × RepoRecord)) (k : String) (v : RepoRecord) :
    lookupRepo (updateRepo repos k v) k = some v := by
  induction repos with
  | nil => simp [updateRepo, lookupRepo]
  | cons p rest ih =>
      obtain ⟨k0, v0⟩ := p
      by_cases h : k0 = k
      · simp [updateRepo, lookupRepo, h]
      · simp [updateRepo, lookupRepo, h, ih]

theorem find?_eq_some_split {α : Type _} (p : α → Bool) :
    ∀ (l : List α) (a : α), l.find? p = some a →
      ∃ pre post, l = pre ++ a :: post ∧ (∀ x ∈ pre, p x = false) ∧ p a = true
  | [], a => by intro h; simp [List.find?] at h
  | x :: l, a => by
      intro h
      by_cases hx : p x
      · refine ⟨[], l, ?_, by simp, ?_⟩
        · simp [List.find?, hx] at h
          simp [h]
        · simp [List.find?, hx] at h
          simpa [h] using hx
      · have h2 : l.find? p = some a := by
          simpa [List.find?, hx] using h
        obtain ⟨pre, post, hl, hpre, hpa⟩ := find?_eq_some_split p l a h2
        refine ⟨x :: pre, post, by simp [hl], ?_, hpa⟩
        intro y hy
        rcases List.mem_cons.mp hy with hy | hy
        · subst hy; simpa using hx
        · exact hpre y hy

/-! ### C1 — queue add -/

/-- C1: evaluation at the failing input. With no queue.txt and no
manifest.json, `add_repo "numpy/numpy"` persists the queue append, but the
manifest half evaluates the bare name `null` (queue_manager.py line 95)
and dies with `NameError`, so the RepoRecord the claim promises is never
created; and for a repository already in the queue the queue file is left
exactly as it was. -/
theorem C1_add_repo_crashes_on_new_repo :
    (QueueManager.add_repo ⟨none, none⟩ "numpy/numpy" 1 "2026-01-01"
      = (⟨some (QueueManager.save_queue ["numpy/numpy"]), none⟩,
          Except.error "NameError: name null is not defined"))
    ∧ QueueManager.load_queue
        (QueueManager.add_repo ⟨none, none⟩ "numpy/numpy" 1 "2026-01-01").1.queueFile
        = ["numpy/numpy"]
    ∧ (QueueManager.add_repo ⟨none, none⟩ "numpy/numpy" 1 "2026-01-01").1.manifestFile = none
    ∧ (QueueManager.add_repo
          ⟨some (QueueManager.save_queue ["numpy/numpy"]), none⟩
          "numpy/numpy" 1 "2026-01-01").1.queueFile
        = some (QueueManager.save_queue ["numpy/numpy"]) := by
  refine ⟨rfl, by decide, rfl, by decide⟩

/-! ### C2 — semver tag filter -/

/-- The shape C2 claims is kept, written from the claim for comparison
with the code: a strict `X.Y.Z` triple of decimal numbers, optionally
preceded by one single leading `v`. -/
def claimedSingleVTriple (t : String) : Bool :=
  (DiscoverVersions.parseSemver t).isSome ||
  (match t.data with
    | 'v' :: rest => (DiscoverVersions.parseSemver (String.mk rest)).isSome
    | _ => false)

/-- C2 counterexample: `"vv1.2.3"` is not a triple with a single optional
leading `v`, yet `filter_semver_tags` keeps it (Python `lstrip("v")`
removes every leading `v`), contradicting the claim that every such tag is
dropped. -/
theorem C2_counterexample :
    claimedSingleVTriple "vv1.2.3" = false
    ∧ DiscoverVersions.filter_semver_tags ["vv1.2.3"] = ["1.2.3"] := by
  refine ⟨by decide, by decide⟩

/-- C2 amended: `filter_semver_tags` keeps exactly the tags that are a
strict `major.minor.patch` digit triple after removing every leading `v`
character (not just one), stores them in the stripped form, and silently
drops everything else (the function is total, it never errors). -/
theorem C2_filter_semver_characterization (tags : List String) (c : String) :
    c ∈ DiscoverVersions.filter_semver_tags tags
      ↔ ∃ t ∈ tags, pyLstripV t = c ∧ (DiscoverVersions.parseSemver c).isSome = true := by
  induction tags with
  | nil => simp [DiscoverVersions.filter_semver_tags]
  | cons t rest ih =>
      unfold DiscoverVersions.filter_semver_tags
      by_cases h : (DiscoverVersions.parseSemver (pyLstripV t)).isSome = true
      · rw [if_pos h, List.mem_cons, ih]
        constructor
        · rintro (rfl | ⟨t2, ht2, hstrip, hc⟩)
          · exact ⟨t, List.mem_cons_self t rest, rfl, h⟩
          · exact ⟨t2, List.mem_cons_of_mem _ ht2, hstrip, hc⟩
        · rintro ⟨t2, ht2, hstrip, hc⟩
          rcases List.mem_cons.mp ht2 with rfl | ht2
          · exact Or.inl (hstrip ▸ rfl)
          · exact Or.inr ⟨t2, ht2, hstrip, hc⟩
      · rw [if_neg h, ih]
        constructor
        · rintro ⟨t2, ht2, hstrip, hc⟩
          exact ⟨t2, List.mem_cons_of_mem _ ht2, hstrip, hc⟩
        · rintro ⟨t2, ht2, hstrip, hc⟩
          rcases List.mem_cons.mp ht2 with rfl | ht2
          · exact absurd (hstrip ▸ hc) h
          · exact ⟨t2, ht2, hstrip, hc⟩

/-- C2 amended witness: the characterization instantiated on the
counterexample input. -/
theorem C2_witness :
    "1.2.3" ∈ DiscoverVersions.filter_semver_tags ["vv1.2.3"]
      ↔ ∃ t ∈ ["vv1.2.3"], pyLstripV t = "1.2.3"
          ∧ (DiscoverVersions.parseSemver "1.2.3").isSome = true :=
  C2_filter_semver_characterization ["vv1.2.3"] "1.2.3"

/-! ### C4 — loading a missing manifest -/

/-- C4 counterexample: the claim says every operation that loads the
manifest treats a missing file as a fresh empty manifest, but the loaders
of discover_versions.py and update_manifest.py open the file directly and
raise `FileNotFoundError`. -/
theorem C4_counterexample :
    UpdateManifest.load_manifest none = Except.error "FileNotFoundError: manifest.json"
    ∧ DiscoverVersions.load_manifest none = Except.error "FileNotFoundError: manifest.json" :=
  ⟨rfl, rfl⟩

/-- C4 amended: only queue management bootstraps a fresh, empty manifest
(no repos, zero stats) when manifest.json is absent; the discovery and
record-parse loaders fail with `FileNotFoundError` instead. -/
theorem C4_load_manifest_amended (now : String) :
    QueueManager.load_manifest none now = freshManifest now
    ∧ (freshManifest now).repos = []
    ∧ (freshManifest now).stats = { total_repos := 0, total_tags_parsed := 0, total_tags_pending := 0 }
    ∧ (∃ e, UpdateManifest.load_manifest none = Except.error e)
    ∧ (∃ e, DiscoverVersions.load_manifest none = Except.error e) :=
  ⟨rfl, rfl, rfl, ⟨_, rfl⟩, ⟨_, rfl⟩⟩

/-- C4 amended witness: the statement at a concrete timestamp. -/
theorem C4_witness :
    QueueManager.load_manifest none "t0" = freshManifest "t0"
    ∧ (freshManifest "t0").repos = []
    ∧ (freshManifest "t0").stats
        = { total_repos := 0, total_tags_parsed := 0, total_tags_pending := 0 }
    ∧ (∃ e, UpdateManifest.load_manifest none = Except.error e)
    ∧ (∃ e, DiscoverVersions.load_manifest none = Except.error e) :=
  C4_load_manifest_amended "t0"

/-! ### C9 — record-parse for an unknown repository -/

/-- C9: `mark_parsed` for a repository absent from the manifest is a hard
failure surfaced to the caller, and the on-disk manifest after the call is
exactly the manifest before it. -/
theorem C9_mark_parsed_unknown_repo (m : Manifest) (org_repo tag sha : String)
    (sr : Option String) (today now : String)
    (h : lookupRepo m.repos org_repo = none) :
    UpdateManifest.mark_parsed m org_repo tag sha sr today now
        = Except.error ("Repo " ++ org_repo ++ " not in manifest")
    ∧ UpdateManifest.diskAfter m org_repo tag sha sr today now = m := by
  have h1 : UpdateManifest.mark_parsed m org_repo tag sha sr today now
      = Except.error ("Repo " ++ org_repo ++ " not in manifest") := by
    unfold UpdateManifest.mark_parsed
    rw [h]
  refine ⟨h1, ?_⟩
  unfold UpdateManifest.diskAfter
  rw [h1]

/-- C9 witness: concrete instance on the fresh empty manifest. -/
theorem C9_witness :
    UpdateManifest.mark_parsed (freshManifest "t0") "a/b" "1.0.0" "sha1" none "2026-01-02" "t1"
        = Except.error ("Repo " ++ "a/b" ++ " not in manifest")
    ∧ UpdateManifest.diskAfter (freshManifest "t0") "a/b" "1.0.0" "sha1" none "2026-01-02" "t1"
        = freshManifest "t0" :=
  C9_mark_parsed_unknown_repo (freshManifest "t0") "a/b" "1.0.0" "sha1" none "2026-01-02" "t1" (by decide)

/-! ### C3 — the allParsed outcome -/

/-- A manifest holding one registered repository, discovered with zero
tags (the state discovery leaves for a repository without semver tags). -/
def zeroTagManifest : Manifest :=
  { version := "1.0", last_updated := "t0"
    repos := [("a/b",
      { added_at := "2026-01-01", priority := 1, parsed_tags := []
        discovered_tags := some [], total_tags := 0, parsed_count := 0
        last_parsed := none })]
    stats := { total_repos := 1, total_tags_parsed := 0, total_tags_pending := 0 } }

/-- C3 counterexample: `mark_parsed` compares with `>=`, not `==`. On a
repository discovered with zero tags, recording one out-of-band tag leaves
`parsed_count = 1` and `total_tags = 0`, yet the call reports
`all_tags_parsed=true`, so the reported outcome is not equivalent to
`parsedCount == totalTags`. -/
theorem C3_counterexample :
    ∃ o rec1,
      UpdateManifest.mark_parsed zeroTagManifest "a/b" "1.0.0" "sha1" none "2026-01-02" "t1"
        = Except.ok o
      ∧ o.allParsed = some true
      ∧ lookupRepo o.manifest.repos "a/b" = some rec1
      ∧ ¬ rec1.parsed_count = rec1.total_tags := by
  refine ⟨_, _, rfl, by decide, rfl, by decide⟩

/-- C3 amended: when `mark_parsed` appends a new record for a registered
repository, the reported `allParsed` outcome is true if and only if the
repository's `parsedCount` is greater than or equal to its `totalTags`
after the append (the code tests `parsed_count >= total_tags`). -/
theorem C3_allparsed_threshold (m : Manifest) (org_repo tag sha : String)
    (sr : Option String) (today now : String) (rec : RepoRecord)
    (h1 : lookupRepo m.repos org_repo = some rec)
    (h2 : tag ∉ rec.parsed_tags.map ParsedTagRecord.tag) :
    ∃ o rec1,
      UpdateManifest.mark_parsed m org_repo tag sha sr today now = Except.ok o
      ∧ o.alreadyParsed = false
      ∧ lookupRepo o.manifest.repos org_repo = some rec1
      ∧ (o.allParsed = some true ↔ rec1.total_tags ≤ rec1.parsed_count)
      ∧ rec1.parsed_count = rec.parsed_tags.length + 1 := by
  unfold UpdateManifest.mark_parsed
  rw [h1]
  dsimp only
  rw [if_neg h2]
  refine ⟨_, _, rfl, rfl, lookup_updateRepo_self _ _ _, ?_, ?_⟩
  · simp
  · simp

/-- A manifest holding one registered repository with one discovered,
still unparsed tag. -/
def oneTagManifest : Manifest :=
  { version := "1.0", last_updated := "t0"
    repos := [("a/b",
      { added_at := "2026-01-01", priority := 1, parsed_tags := []
        discovered_tags := some ["1.0.0"], total_tags := 1, parsed_count := 0
        last_parsed := none })]
    stats := { total_repos := 1, total_tags_parsed := 0, total_tags_pending := 1 } }

/-- C3 witness: the amended statement evaluated on a concrete manifest. -/
theorem C3_witness :
    ∃ o rec1,
      UpdateManifest.mark_parsed oneTagManifest "a/b" "1.0.0" "sha1" none "2026-01-02" "t1"
        = Except.ok o
      ∧ o.alreadyParsed = false
      ∧ lookupRepo o.manifest.repos "a/b" = some rec1
      ∧ (o.allParsed = some true ↔ rec1.total_tags ≤ rec1.parsed_count)
      ∧ rec1.parsed_count = 0 + 1 :=
  C3_allparsed_threshold oneTagManifest "a/b" "1.0.0" "sha1" none "2026-01-02" "t1"
    { added_at := "2026-01-01", priority := 1, parsed_tags := []
      discovered_tags := some ["1.0.0"], total_tags := 1, parsed_count := 0
      last_parsed := none }
    (by decide) (by decide)

/-- The duplicate guard of `mark_parsed`: a tag already among the parsed
tags of a registered repository makes the call an early-return no-op. -/
theorem mark_parsed_already (m1 : Manifest) (org_repo tag sha : String)
    (sr : Option String) (today now : String) (rec1 : RepoRecord)
    (h : lookupRepo m1.repos org_repo = some rec1)
    (ht : tag ∈ rec1.parsed_tags.map ParsedTagRecord.tag) :
    UpdateManifest.mark_parsed m1 org_repo tag sha sr today now
      = Except.ok { manifest := m1, alreadyParsed := true, allParsed := none } := by
  unfold UpdateManifest.mark_parsed
  rw [h]
  dsimp only
  rw [if_pos ht]

/-! ### C8 — idempotent recording -/

/-- Once `mark_parsed` is a recorded no-op on some manifest, iterating it
any number of times stays at that manifest. -/
theorem markParsedIter_fixpoint (org_repo tag sha : String) (sr : Option String)
    (today now : String) (m1 : Manifest)
    (h : UpdateManifest.mark_parsed m1 org_repo tag sha sr today now
          = Except.ok { manifest := m1, alreadyParsed := true, allParsed := none }) :
    ∀ n, UpdateManifest.markParsedIter org_repo tag sha sr today now n m1 = Except.ok m1
  | 0 => rfl
  | n + 1 => by
      unfold UpdateManifest.markParsedIter
      rw [h]
      exact markParsedIter_fixpoint org_repo tag sha sr today now m1 h n

/-- C8: for a registered repository and a tag not yet parsed, the first
`mark_parsed` appends exactly one `ParsedTagRecord` for that tag and
advances `parsed_count`/`last_parsed`; every later call with the same
(repo, tag) — whatever its other arguments — returns the manifest
untouched and reports the tag as already parsed, so iterating the call any
number of times never moves past the first append. -/
theorem C8_mark_parsed_idempotent (m : Manifest) (org_repo tag sha : String)
    (sr : Option String) (today now : String) (rec : RepoRecord)
    (h1 : lookupRepo m.repos org_repo = some rec)
    (h2 : tag ∉ rec.parsed_tags.map ParsedTagRecord.tag) :
    ∃ o rec1,
      UpdateManifest.mark_parsed m org_repo tag sha sr today now = Except.ok o
      ∧ o.alreadyParsed = false
      ∧ lookupRepo o.manifest.repos org_repo = some rec1
      ∧ (rec1.parsed_tags.filter (fun e => e.tag == tag)).length = 1
      ∧ rec1.parsed_count = rec.parsed_tags.length + 1
      ∧ rec1.last_parsed = some today
      ∧ (∀ sha2 sr2 today2 now2,
            UpdateManifest.mark_parsed o.manifest org_repo tag sha2 sr2 today2 now2
              = Except.ok { manifest := o.manifest, alreadyParsed := true, allParsed := none })
      ∧ (∀ n, UpdateManifest.markParsedIter org_repo tag sha sr today now n o.manifest
            = Except.ok o.manifest) := by
  have hold : rec.parsed_tags.filter (fun e => e.tag == tag) = [] := by
    rw [List.filter_eq_nil_iff]
    intro e he
    have hne : e.tag ≠ tag := fun hEq => h2 (hEq ▸ List.mem_map_of_mem ParsedTagRecord.tag he)
    simp [hne]
  unfold UpdateManifest.mark_parsed
  rw [h1]
  dsimp only
  rw [if_neg h2]
  refine ⟨_, _, rfl, rfl, lookup_updateRepo_self _ _ _, ?_, by simp, rfl, ?_, ?_⟩
  · rw [List.filter_append, hold, List.nil_append]
    simp
  · intro sha2 sr2 today2 now2
    exact mark_parsed_already _ _ _ _ _ _ _ _ (lookup_updateRepo_self _ _ _) (by simp)
  · intro n
    apply markParsedIter_fixpoint
    exact mark_parsed_already _ _ _ _ _ _ _ _ (lookup_updateRepo_self _ _ _) (by simp)

/-- C8 witness: the statement evaluated on a concrete manifest. -/
theorem C8_witness :
    ∃ o rec1,
      UpdateManifest.mark_parsed oneTagManifest "a/b" "1.0.0" "sha1" none "2026-01-02" "t1"
        = Except.ok o
      ∧ o.alreadyParsed = false
      ∧ lookupRepo o.manifest.repos "a/b" = some rec1
      ∧ (rec1.parsed_tags.filter (fun e => e.tag == "1.0.0")).length = 1
      ∧ rec1.parsed_count = 0 + 1
      ∧ rec1.last_parsed = some "2026-01-02"
      ∧ (∀ sha2 sr2 today2 now2,
            UpdateManifest.mark_parsed o.manifest "a/b" "1.0.0" sha2 sr2 today2 now2
              = Except.ok { manifest := o.manifest, alreadyParsed := true, allParsed := none })
      ∧ (∀ n, UpdateManifest.markParsedIter "a/b" "1.0.0" "sha1" none "2026-01-02" "t1" n o.manifest
            = Except.ok o.manifest) :=
  C8_mark_parsed_idempotent oneTagManifest "a/b" "1.0.0" "sha1" none "2026-01-02" "t1"
    { added_at := "2026-01-01", priority := 1, parsed_tags := []
      discovered_tags := some ["1.0.0"], total_tags := 1, parsed_count := 0
      last_parsed := none }
    (by decide) (by decide)

/-! ### C10 — queue persistence round-trip -/

/-- C10: saving a queue of well-formed repository lines (non-empty, no
newline, no surrounding whitespace, not a comment) and loading it back
returns exactly the same list in order; the header comment lines written
by `save_queue` are filtered out by `load_queue`. -/
theorem C10_queue_roundtrip (repos : List String)
    (h : ∀ r ∈ repos, r ≠ "" ∧ pyStrip r = r ∧ startsHash r = false ∧ Char.ofNat 10 ∉ r.data) :
    QueueManager.load_queue (some (QueueManager.save_queue repos)) = repos := by
  have aux : ∀ rs : List String, (∀ r ∈ rs, r ≠ "" ∧ pyStrip r = r ∧ startsHash r = false) →
      (rs.map pyStrip).filter (fun l => !(l == "") && !(startsHash l)) = rs := by
    intro rs
    induction rs with
    | nil => intro _; rfl
    | cons r rest ih =>
        intro hrs
        obtain ⟨hne, hstrip, hhash⟩ := hrs r (List.mem_cons_self r rest)
        have hcond : (!(r == "") && !(startsHash r)) = true := by
          rw [beq_eq_false_iff_ne.mpr hne, hhash]
          rfl
        simp only [List.map_cons, List.filter_cons, hstrip, hcond, if_true]
        rw [ih (fun x hx => hrs x (List.mem_cons_of_mem _ hx))]
  unfold QueueManager.load_queue QueueManager.save_queue
  dsimp only
  rw [List.map_append, List.filter_append]
  have hh : ((QueueManager.queueHeader.map pyStrip).filter
      (fun l => !(l == "") && !(startsHash l))) = [] := by decide
  rw [hh, List.nil_append]
  exact aux repos (fun r hr => ⟨(h r hr).1, (h r hr).2.1, (h r hr).2.2.1⟩)

/-- C10 witness: a concrete two-element queue round-trips. -/
theorem C10_witness :
    QueueManager.load_queue (some (QueueManager.save_queue ["numpy/numpy", "pandas/pandas"]))
      = ["numpy/numpy", "pandas/pandas"] :=
  C10_queue_roundtrip ["numpy/numpy", "pandas/pandas"] (by decide)

/-! ### C7 — parse candidates and tag selection -/

/-- Every queue entry that `find_next_repo` classifies as a `parse`
candidate has strictly fewer parsed than discovered tags. -/
theorem repos_with_work_parse_lt (m : Manifest) :
    ∀ (queue : List String) (r : String) (lp : Option String),
      (r, lp, FindNextWork.WorkType.parse) ∈ FindNextWork.repos_with_work m queue →
      ∃ rec, lookupRepo m.repos r = some rec ∧ rec.parsed_count < rec.total_tags := by
  intro queue
  induction queue with
  | nil => intro r lp h; simp [FindNextWork.repos_with_work] at h
  | cons q rest ih =>
      intro r lp h
      unfold FindNextWork.repos_with_work at h
      cases hq : lookupRepo m.repos q with
      | none =>
          rw [hq] at h
          dsimp only at h
          rcases List.mem_cons.mp h with heq | h2
          · exact absurd heq (by simp)
          · exact ih r lp h2
      | some data =>
          rw [hq] at h
          dsimp only at h
          cases hd : data.discovered_tags with
          | none =>
              rw [hd] at h
              dsimp only at h
              rcases List.mem_cons.mp h with heq | h2
              · exact absurd heq (by simp)
              · exact ih r lp h2
          | some dts =>
              rw [hd] at h
              dsimp only at h
              by_cases hc : data.parsed_count < data.total_tags
              · rw [if_pos hc] at h
                rcases List.mem_cons.mp h with heq | h2
                · simp only [Prod.mk.injEq] at heq
                  obtain ⟨rfl, -, -⟩ := heq
                  exact ⟨data, hq, hc⟩
                · exact ih r lp h2
              · rw [if_neg hc] at h
                exact ih r lp h

/-- C7: a fully parsed repository (`parsed_count = total_tags`) is never a
`parse` candidate, and whenever `find_next_tag` returns a tag it is the
first entry of `discovered_tags`, scanned in order, that is not among that
repository's already-parsed tags. -/
theorem C7_parse_candidates (queue : List String) (m : Manifest) :
    (∀ r lp, (r, lp, FindNextWork.WorkType.parse) ∈ FindNextWork.repos_with_work m queue →
        ∃ rec, lookupRepo m.repos r = some rec
          ∧ rec.parsed_count < rec.total_tags
          ∧ ¬ rec.parsed_count = rec.total_tags)
    ∧ (∀ r t, FindNextWork.find_next_tag r m = some t →
        ∃ rec dts pre post, lookupRepo m.repos r = some rec
          ∧ rec.discovered_tags = some dts
          ∧ dts = pre ++ t :: post
          ∧ (∀ u ∈ pre, u ∈ rec.parsed_tags.map ParsedTagRecord.tag)
          ∧ t ∉ rec.parsed_tags.map ParsedTagRecord.tag) := by
  constructor
  · intro r lp h
    obtain ⟨rec, hrec, hlt⟩ := repos_with_work_parse_lt m queue r lp h
    exact ⟨rec, hrec, hlt, Nat.ne_of_lt hlt⟩
  · intro r t h
    unfold FindNextWork.find_next_tag at h
    cases hq : lookupRepo m.repos r with
    | none => rw [hq] at h; exact absurd h (by simp)
    | some data =>
        rw [hq] at h
        dsimp only at h
        cases hd : data.discovered_tags with
        | none => rw [hd] at h; exact absurd h (by simp)
        | some dts =>
            rw [hd] at h
            dsimp only at h
            obtain ⟨pre, post, hsplit, hpre, hpa⟩ := find?_eq_some_split _ dts t h
            refine ⟨data, dts, pre, post, rfl, hd, hsplit, ?_, ?_⟩
            · intro u hu
              have hxu := hpre u hu
              simpa [List.elem_iff] using hxu
            · intro hmem
              rw [Bool.not_eq_true'] at hpa
              exact absurd (List.elem_iff.mpr hmem) (by simpa using hpa)

/-- A manifest with one repository, two discovered tags, the first one
already parsed. -/
def twoTagManifest : Manifest :=
  { version := "1.0", last_updated := "t0"
    repos := [("a/b",
      { added_at := "2026-01-01", priority := 1
        parsed_tags := [{ tag := "1.0.0", commit_sha := "c1", parsed_at := "2026-01-02"
                          storage_repo := "s", deps_graph := none, parse_status := "complete" }]
        discovered_tags := some ["1.0.0", "1.1.0"], total_tags := 2, parsed_count := 1
        last_parsed := some "2026-01-02" })]
    stats := { total_repos := 1, total_tags_parsed := 1, total_tags_pending := 1 } }

/-- C7 witness: on a concrete manifest, the returned tag `1.1.0` is the
first unparsed entry of the discovered list. -/
theorem C7_witness :
    ∃ rec dts pre post, lookupRepo twoTagManifest.repos "a/b" = some rec
      ∧ rec.discovered_tags = some dts
      ∧ dts = pre ++ "1.1.0" :: post
      ∧ (∀ u ∈ pre, u ∈ rec.parsed_tags.map ParsedTagRecord.tag)
      ∧ "1.1.0" ∉ rec.parsed_tags.map ParsedTagRecord.tag :=
  (C7_parse_candidates [] twoTagManifest).2 "a/b" "1.1.0" (by decide)

/-! ### C6 — scheduler fairness ranking -/

theorem keyLe_refl (a : Nat × String) : FindNextWork.keyLe a a :=
  Or.inr ⟨rfl, le_refl _⟩

theorem keyLe_total (a b : Nat × String) : FindNextWork.keyLe a b ∨ FindNextWork.keyLe b a := by
  unfold FindNextWork.keyLe
  rcases Nat.lt_trichotomy a.1 b.1 with h | h | h
  · exact Or.inl (Or.inl h)
  · rcases le_total a.2 b.2 with h2 | h2
    · exact Or.inl (Or.inr ⟨h, h2⟩)
    · exact Or.inr (Or.inr ⟨h.symm, h2⟩)
  · exact Or.inr (Or.inl h)

theorem keyLe_trans (a b c : Nat × String)
    (h1 : FindNextWork.keyLe a b) (h2 : FindNextWork.keyLe b c) : FindNextWork.keyLe a c := by
  unfold FindNextWork.keyLe at h1 h2 ⊢
  rcases h1 with h1 | ⟨h1, h1s⟩ <;> rcases h2 with h2 | ⟨h2, h2s⟩
  · exact Or.inl (h1.trans h2)
  · exact Or.inl (h2 ▸ h1)
  · exact Or.inl (h1 ▸ h2)
  · exact Or.inr ⟨h1.trans h2, h1s.trans h2s⟩

instance : IsTotal FindNextWork.Cand FindNextWork.candLe :=
  ⟨fun a b => keyLe_total _ _⟩

instance : IsTrans FindNextWork.Cand FindNextWork.candLe :=
  ⟨fun a b c => keyLe_trans _ _ _⟩

theorem sortKey_ne_of_not_candLe {x y : FindNextWork.Cand}
    (h : ¬ FindNextWork.candLe x y) : FindNextWork.sortKey y ≠ FindNextWork.sortKey x := by
  intro he
  refine h ?_
  unfold FindNextWork.candLe
  rw [he]
  exact keyLe_refl _

/-- Inserting a candidate into a list only ever places it before elements
with a strictly smaller sort key, so filtering by an exact key value sees
the inserted element first exactly when its key matches. -/
theorem filter_orderedInsert_key (k : Nat × String) (x : FindNextWork.Cand) :
    ∀ l : List FindNextWork.Cand,
      (List.orderedInsert FindNextWork.candLe x l).filter
          (fun y => decide (FindNextWork.sortKey y = k))
        = if FindNextWork.sortKey x = k
          then x :: l.filter (fun y => decide (FindNextWork.sortKey y = k))
          else l.filter (fun y => decide (FindNextWork.sortKey y = k))
  | [] => by
      by_cases hx : FindNextWork.sortKey x = k
      · simp [hx]
      · simp [hx]
  | b :: l => by
      by_cases hr : FindNextWork.candLe x b
      · rw [List.orderedInsert, if_pos hr]
        by_cases hx : FindNextWork.sortKey x = k
        · simp [List.filter_cons, hx]
        · simp [List.filter_cons, hx]
      · rw [List.orderedInsert, if_neg hr]
        have hbx := sortKey_ne_of_not_candLe hr
        rw [List.filter_cons, List.filter_cons, filter_orderedInsert_key k x l]
        by_cases hx : FindNextWork.sortKey x = k
        · have hb : ¬ FindNextWork.sortKey b = k := fun hbk => hbx (hbk.trans hx.symm)
          simp [hx, hb]
        · by_cases hb : FindNextWork.sortKey b = k
          · simp [hx, hb]
          · simp [hx, hb]

/-- Stability of the candidate sort, phrased per key value: the
subsequence of candidates with a given sort key is exactly the one of the
unsorted candidate list. -/
theorem filter_insertionSort_key (k : Nat × String) :
    ∀ l : List FindNextWork.Cand,
      (List.insertionSort FindNextWork.candLe l).filter
          (fun y => decide (FindNextWork.sortKey y = k))
        = l.filter (fun y => decide (FindNextWork.sortKey y = k))
  | [] => rfl
  | a :: l => by
      rw [List.insertionSort, filter_orderedInsert_key, List.filter_cons,
        filter_insertionSort_key k l]
      by_cases hx : FindNextWork.sortKey a = k
      · simp [hx]
      · simp [hx]

/-- C6: after the stable sort, every never-parsed candidate precedes every
parsed one; parsed candidates appear in ascending `last_parsed` order;
candidates with equal sort keys keep their queue order; and whenever an
eligible never-parsed candidate exists, the selected repository is a
never-parsed one. -/
theorem C6_scheduler_fairness (queue : List String) (m : Manifest) :
    (FindNextWork.rankedCandidates m queue).Pairwise
        (fun a b => b.2.1 = none → a.2.1 = none)
    ∧ (FindNextWork.rankedCandidates m queue).Pairwise
        (fun a b => ∀ da db, a.2.1 = some da → b.2.1 = some db → da ≤ db)
    ∧ (∀ k, (FindNextWork.rankedCandidates m queue).filter
            (fun c => decide (FindNextWork.sortKey c = k))
          = (FindNextWork.repos_with_work m queue).filter
            (fun c => decide (FindNextWork.sortKey c = k)))
    ∧ ((∃ c ∈ FindNextWork.repos_with_work m queue, c.2.1 = none) →
        ∃ c0 rest, FindNextWork.rankedCandidates m queue = c0 :: rest
          ∧ c0.2.1 = none
          ∧ FindNextWork.find_next_repo queue m = some c0.1) := by
  have hsorted : List.Sorted FindNextWork.candLe (FindNextWork.rankedCandidates m queue) :=
    List.sorted_insertionSort FindNextWork.candLe _
  refine ⟨?_, ?_, fun k => filter_insertionSort_key k _, ?_⟩
  · refine List.Pairwise.imp ?_ hsorted
    intro a b hab
    intro hbnone
    unfold FindNextWork.candLe FindNextWork.keyLe FindNextWork.sortKey at hab
    rw [hbnone] at hab
    cases ha : a.2.1 with
    | none => rfl
    | some d =>
        rw [ha] at hab
        dsimp only at hab
        rcases hab with h | ⟨h, -⟩ <;> omega
  · refine List.Pairwise.imp ?_ hsorted
    intro a b hab da db hda hdb
    unfold FindNextWork.candLe FindNextWork.keyLe FindNextWork.sortKey at hab
    rw [hda, hdb] at hab
    dsimp only at hab
    rcases hab with h | ⟨-, hs⟩
    · omega
    · exact hs
  · rintro ⟨c, hc, hcnone⟩
    have hcmem : c ∈ FindNextWork.rankedCandidates m queue := by
      unfold FindNextWork.rankedCandidates
      rw [List.mem_insertionSort]
      exact hc
    cases hrank : FindNextWork.rankedCandidates m queue with
    | nil => rw [hrank] at hcmem; cases hcmem
    | cons c0 rest =>
        rw [hrank] at hcmem hsorted
        refine ⟨c0, rest, rfl, ?_, ?_⟩
        · rcases List.mem_cons.mp hcmem with rfl | hcrest
          · exact hcnone
          · have hle : FindNextWork.candLe c0 c := (List.sorted_cons.mp hsorted).1 c hcrest
            cases hc0 : c0.2.1 with
            | none => rfl
            | some d =>
                exfalso
                unfold FindNextWork.candLe FindNextWork.keyLe FindNextWork.sortKey at hle
                rw [hc0, hcnone] at hle
                dsimp only at hle
                rcases hle with h | ⟨h, -⟩ <;> omega
        · unfold FindNextWork.find_next_repo
          rw [hrank]

/-- A manifest in which repository `b/b` has pending work but was parsed
recently, while `a/a` (in the queue, absent from the manifest) was never
parsed. -/
def fairnessManifest : Manifest :=
  { version := "1.0", last_updated := "t0"
    repos := [("b/b",
      { added_at := "2026-01-01", priority := 1
        parsed_tags := [{ tag := "1.0.0", commit_sha := "c1", parsed_at := "2026-01-05"
                          storage_repo := "s", deps_graph := none, parse_status := "complete" }]
        discovered_tags := some ["1.0.0", "1.1.0"], total_tags := 2, parsed_count := 1
        last_parsed := some "2026-01-05" })]
    stats := { total_repos := 1, total_tags_parsed := 1, total_tags_pending := 1 } }

/-- C6 witness: with eligible never-parsed `a/a` and recently parsed
`b/b`, the scheduler selects a never-parsed candidate. -/
theorem C6_witness :
    ∃ c0 rest, FindNextWork.rankedCandidates fairnessManifest ["b/b", "a/a"] = c0 :: rest
      ∧ c0.2.1 = none
      ∧ FindNextWork.find_next_repo ["b/b", "a/a"] fairnessManifest = some c0.1 :=
  (C6_scheduler_fairness ["b/b", "a/a"] fairnessManifest).2.2.2
    ⟨("a/a", none, FindNextWork.WorkType.isNew), by decide, rfl⟩

/-! ### C5 — smart version selection -/

open DiscoverVersions

theorem vLe_refl (a : Nat × Nat × Nat) : vLe a a := by
  obtain ⟨a1, a2, a3⟩ := a
  unfold vLe
  dsimp only
  omega

theorem vLe_total (a b : Nat × Nat × Nat) : vLe a b ∨ vLe b a := by
  obtain ⟨a1, a2, a3⟩ := a
  obtain ⟨b1, b2, b3⟩ := b
  unfold vLe
  dsimp only
  omega

theorem vLe_trans (a b c : Nat × Nat × Nat) (h1 : vLe a b) (h2 : vLe b c) : vLe a c := by
  obtain ⟨a1, a2, a3⟩ := a
  obtain ⟨b1, b2, b3⟩ := b
  obtain ⟨c1, c2, c3⟩ := c
  unfold vLe at h1 h2 ⊢
  dsimp only at h1 h2 ⊢
  omega

theorem vLe_of_vLt {a b : Nat × Nat × Nat} (h : vLt a b) : vLe a b := by
  obtain ⟨a1, a2, a3⟩ := a
  obtain ⟨b1, b2, b3⟩ := b
  unfold vLt at h
  unfold vLe
  dsimp only at h ⊢
  omega

theorem vLe_of_not_vLt {a b : Nat × Nat × Nat} (h : ¬ vLt a b) : vLe b a := by
  obtain ⟨a1, a2, a3⟩ := a
  obtain ⟨b1, b2, b3⟩ := b
  unfold vLt at h
  unfold vLe
  dsimp only at h ⊢
  omega

theorem vLt_of_vLe_ne {a b : Nat × Nat × Nat} (h : vLe a b) (hne : a ≠ b) : vLt a b := by
  obtain ⟨a1, a2, a3⟩ := a
  obtain ⟨b1, b2, b3⟩ := b
  unfold vLe at h
  unfold vLt
  dsimp only at h ⊢
  rcases eq_or_ne a1 b1 with rfl | h1
  · rcases eq_or_ne a2 b2 with rfl | h2
    · rcases eq_or_ne a3 b3 with rfl | h3
      · exact absurd rfl hne
      · omega
    · omega
  · omega

instance : IsTotal String tagLe := ⟨fun a b => vLe_total _ _⟩

instance : IsTrans String tagLe := ⟨fun a b c => vLe_trans _ _ _⟩

/-- The step function of the `by_major_minor` grouping fold (named alias
of the lambda inside `groupTags`). -/
def gStep (gs : List ((Nat × Nat) × List String)) (t : String) :
    List ((Nat × Nat) × List String) :=
  match parseSemver t with
  | some v => addToGroup (v.1, v.2.1) t gs
  | none => gs

theorem groupTags_eq_foldl (tags : List String) : groupTags tags = tags.foldl gStep [] := rfl

theorem addToGroup_sound (k1 : Nat × Nat) (t : String) (hM : mmOf t = some k1) :
    ∀ (gs : List ((Nat × Nat) × List String)),
      (∀ k ts, (k, ts) ∈ gs → ∀ s ∈ ts, mmOf s = some k) →
      ∀ k ts, (k, ts) ∈ addToGroup k1 t gs → ∀ s ∈ ts, mmOf s = some k
  | [] => by
      intro _ k ts hmem s hs
      simp only [addToGroup, List.mem_singleton, Prod.mk.injEq] at hmem
      obtain ⟨rfl, rfl⟩ := hmem
      rw [List.mem_singleton] at hs
      subst hs
      exact hM
  | (k0, ts0) :: rest => by
      intro hgs k ts hmem s hs
      unfold addToGroup at hmem
      by_cases h0 : k0 = k1
      · rw [if_pos h0] at hmem
        rcases List.mem_cons.mp hmem with heq | hrest
        · simp only [Prod.mk.injEq] at heq
          obtain ⟨rfl, rfl⟩ := heq
          rcases List.mem_append.mp hs with hs2 | hs2
          · exact hgs k ts0 (List.mem_cons_self _ _) s hs2
          · rw [List.mem_singleton] at hs2
            subst hs2
            rw [hM, h0]
        · exact hgs k ts (List.mem_cons_of_mem _ hrest) s hs
      · rw [if_neg h0] at hmem
        rcases List.mem_cons.mp hmem with heq | hrest
        · simp only [Prod.mk.injEq] at heq
          obtain ⟨rfl, rfl⟩ := heq
          exact hgs k ts (List.mem_cons_self _ _) s hs
        · exact addToGroup_sound k1 t hM rest
            (fun k2 ts2 hm => hgs k2 ts2 (List.mem_cons_of_mem _ hm)) k ts hrest s hs

theorem foldl_gStep_sound :
    ∀ (tags : List String) (gs : List ((Nat × Nat) × List String)),
      (∀ k ts, (k, ts) ∈ gs → ∀ s ∈ ts, mmOf s = some k) →
      ∀ k ts, (k, ts) ∈ tags.foldl gStep gs → ∀ s ∈ ts, mmOf s = some k
  | [], _ => fun hgs => hgs
  | t :: rest, gs => by
      intro hgs
      show ∀ k ts, (k, ts) ∈ rest.foldl gStep (gStep gs t) → ∀ s ∈ ts, mmOf s = some k
      apply foldl_gStep_sound rest (gStep gs t)
      intro k ts hmem s hs
      unfold gStep at hmem
      cases hp : parseSemver t with
      | none => rw [hp] at hmem; exact hgs k ts hmem s hs
      | some v =>
          rw [hp] at hmem
          exact addToGroup_sound (v.1, v.2.1) t
            (by unfold mmOf; rw [hp]; rfl) gs hgs k ts hmem s hs

theorem groupTags_sound (tags : List String) (k : Nat × Nat) (ts : List String)
    (hmem : (k, ts) ∈ groupTags tags) : ∀ s ∈ ts, mmOf s = some k :=
  foldl_gStep_sound tags [] (by simp) k ts (groupTags_eq_foldl tags ▸ hmem)

theorem addToGroup_keys_sub (k1 : Nat × Nat) (t : String) :
    ∀ (gs : List ((Nat × Nat) × List String)) g, g ∈ addToGroup k1 t gs →
      g.1 ∈ gs.map Prod.fst ∨ g.1 = k1
  | [] => by
      intro g hg
      simp only [addToGroup, List.mem_singleton] at hg
      subst hg
      exact Or.inr rfl
  | (k0, ts0) :: rest => by
      intro g hg
      unfold addToGroup at hg
      by_cases h0 : k0 = k1
      · rw [if_pos h0] at hg
        rcases List.mem_cons.mp hg with rfl | hr
        · exact Or.inl (by simp)
        · exact Or.inl (by rw [List.map_cons]; exact List.mem_cons_of_mem _ (List.mem_map_of_mem Prod.fst hr))
      · rw [if_neg h0] at hg
        rcases List.mem_cons.mp hg with rfl | hr
        · exact Or.inl (by simp)
        · rcases addToGroup_keys_sub k1 t rest g hr with hk | hk
          · exact Or.inl (by rw [List.map_cons]; exact List.mem_cons_of_mem _ hk)
          · exact Or.inr hk

theorem addToGroup_keys_distinct (k1 : Nat × Nat) (t : String) :
    ∀ (gs : List ((Nat × Nat) × List String)),
      gs.Pairwise (fun g h => g.1 ≠ h.1) →
      (addToGroup k1 t gs).Pairwise (fun g h => g.1 ≠ h.1)
  | [] => by
      intro _
      simp [addToGroup]
  | (k0, ts0) :: rest => by
      intro hp
      rw [List.pairwise_cons] at hp
      unfold addToGroup
      by_cases h0 : k0 = k1
      · rw [if_pos h0, List.pairwise_cons]
        exact ⟨fun g hg => hp.1 g hg, hp.2⟩
      · rw [if_neg h0, List.pairwise_cons]
        refine ⟨?_, addToGroup_keys_distinct k1 t rest hp.2⟩
        intro g hg
        rcases addToGroup_keys_sub k1 t rest g hg with hk | hk
        · rw [List.mem_map] at hk
          obtain ⟨g0, hg0, hgeq⟩ := hk
          rw [← hgeq]
          exact hp.1 g0 hg0
        · rw [hk]
          exact h0

theorem foldl_gStep_keys :
    ∀ (tags : List String) (gs : List ((Nat × Nat) × List String)),
      gs.Pairwise (fun g h => g.1 ≠ h.1) →
      (tags.foldl gStep gs).Pairwise (fun g h => g.1 ≠ h.1)
  | [], _ => fun h => h
  | t :: rest, gs => by
      intro h
      show (rest.foldl gStep (gStep gs t)).Pairwise _
      apply foldl_gStep_keys rest (gStep gs t)
      unfold gStep
      cases hp : parseSemver t with
      | none => exact h
      | some v => exact addToGroup_keys_distinct (v.1, v.2.1) t gs h

theorem groupTags_keys_distinct (tags : List String) :
    (groupTags tags).Pairwise (fun g h => g.1 ≠ h.1) :=
  groupTags_eq_foldl tags ▸ foldl_gStep_keys tags [] (by simp)

theorem groups_unique_key :
    ∀ (gs : List ((Nat × Nat) × List String)),
      gs.Pairwise (fun g h => g.1 ≠ h.1) →
      ∀ k ts ts2, (k, ts) ∈ gs → (k, ts2) ∈ gs → ts = ts2
  | [] => by intro _ k ts ts2 h; cases h
  | g :: rest => by
      intro hp k ts ts2 h1 h2
      rw [List.pairwise_cons] at hp
      rcases List.mem_cons.mp h1 with heq1 | h1r
      · rcases List.mem_cons.mp h2 with heq2 | h2r
        · exact congrArg Prod.snd (heq1.trans heq2.symm)
        · exfalso
          have hne := hp.1 (k, ts2) h2r
          rw [← heq1] at hne
          exact hne rfl
      · rcases List.mem_cons.mp h2 with heq2 | h2r
        · exfalso
          have hne := hp.1 (k, ts) h1r
          rw [← heq2] at hne
          exact hne rfl
        · exact groups_unique_key rest hp.2 k ts ts2 h1r h2r

theorem addToGroup_mem_super (k1 : Nat × Nat) (t : String) :
    ∀ (gs : List ((Nat × Nat) × List String)) k ts, (k, ts) ∈ gs →
      ∃ ts2, (k, ts2) ∈ addToGroup k1 t gs ∧ ∀ s ∈ ts, s ∈ ts2
  | [] => by intro k ts h; cases h
  | (k0, ts0) :: rest => by
      intro k ts h
      unfold addToGroup
      by_cases h0 : k0 = k1
      · rw [if_pos h0]
        rcases List.mem_cons.mp h with heq | hr
        · simp only [Prod.mk.injEq] at heq
          obtain ⟨rfl, rfl⟩ := heq
          exact ⟨ts ++ [t], List.mem_cons_self _ _, fun s hs => List.mem_append_left _ hs⟩
        · exact ⟨ts, List.mem_cons_of_mem _ hr, fun s hs => hs⟩
      · rw [if_neg h0]
        rcases List.mem_cons.mp h with heq | hr
        · simp only [Prod.mk.injEq] at heq
          obtain ⟨rfl, rfl⟩ := heq
          exact ⟨ts, List.mem_cons_self _ _, fun s hs => hs⟩
        · obtain ⟨ts2, hmem, hsub⟩ := addToGroup_mem_super k1 t rest k ts hr
          exact ⟨ts2, List.mem_cons_of_mem _ hmem, hsub⟩

theorem addToGroup_self (k1 : Nat × Nat) (t : String) :
    ∀ gs : List ((Nat × Nat) × List String),
      ∃ ts, (k1, ts) ∈ addToGroup k1 t gs ∧ t ∈ ts
  | [] => ⟨[t], by simp [addToGroup], by simp⟩
  | (k0, ts0) :: rest => by
      unfold addToGroup
      by_cases h0 : k0 = k1
      · rw [if_pos h0]
        subst h0
        exact ⟨ts0 ++ [t], List.mem_cons_self _ _,
          List.mem_append_right _ (List.mem_singleton.mpr rfl)⟩
      · rw [if_neg h0]
        obtain ⟨ts, hmem, ht⟩ := addToGroup_self k1 t rest
        exact ⟨ts, List.mem_cons_of_mem _ hmem, ht⟩

theorem foldl_gStep_complete :
    ∀ (tags : List String) (gs : List ((Nat × Nat) × List String)) (s : String)
      (v : Nat × Nat × Nat),
      parseSemver s = some v →
      (s ∈ tags ∨ ∃ ts0, ((v.1, v.2.1), ts0) ∈ gs ∧ s ∈ ts0) →
      ∃ ts, ((v.1, v.2.1), ts) ∈ tags.foldl gStep gs ∧ s ∈ ts
  | [], gs, s, v => by
      intro _ h
      rcases h with h | h
      · cases h
      · exact h
  | t :: rest, gs, s, v => by
      intro hp h
      show ∃ ts, ((v.1, v.2.1), ts) ∈ rest.foldl gStep (gStep gs t) ∧ s ∈ ts
      rcases h with h | ⟨ts0, hmem, hs⟩
      · rcases List.mem_cons.mp h with heq | hrest
        · have heq2 : t = s := heq.symm
          subst heq2
          apply foldl_gStep_complete rest (gStep gs t) t v hp
          right
          unfold gStep
          rw [hp]
          exact addToGroup_self (v.1, v.2.1) t gs
        · exact foldl_gStep_complete rest (gStep gs t) s v hp (Or.inl hrest)
      · apply foldl_gStep_complete rest (gStep gs t) s v hp
        right
        unfold gStep
        cases hpt : parseSemver t with
        | none => exact ⟨ts0, hmem, hs⟩
        | some v2 =>
            obtain ⟨ts2, hmem2, hsub⟩ := addToGroup_mem_super (v2.1, v2.2.1) t gs _ _ hmem
            exact ⟨ts2, hmem2, hsub s hs⟩

theorem addToGroup_from (P : String → Prop) (k1 : Nat × Nat) (t : String) (ht : P t) :
    ∀ (gs : List ((Nat × Nat) × List String)),
      (∀ k ts, (k, ts) ∈ gs → ∀ s ∈ ts, P s) →
      ∀ k ts, (k, ts) ∈ addToGroup k1 t gs → ∀ s ∈ ts, P s
  | [] => by
      intro _ k ts hmem s hs
      simp only [addToGroup, List.mem_singleton, Prod.mk.injEq] at hmem
      obtain ⟨rfl, rfl⟩ := hmem
      rw [List.mem_singleton] at hs
      subst hs
      exact ht
  | (k0, ts0) :: rest => by
      intro hgs k ts hmem s hs
      unfold addToGroup at hmem
      by_cases h0 : k0 = k1
      · rw [if_pos h0] at hmem
        rcases List.mem_cons.mp hmem with heq | hr
        · simp only [Prod.mk.injEq] at heq
          obtain ⟨rfl, rfl⟩ := heq
          rcases List.mem_append.mp hs with hs2 | hs2
          · exact hgs k ts0 (List.mem_cons_self _ _) s hs2
          · rw [List.mem_singleton] at hs2
            subst hs2
            exact ht
        · exact hgs k ts (List.mem_cons_of_mem _ hr) s hs
      · rw [if_neg h0] at hmem
        rcases List.mem_cons.mp hmem with heq | hr
        · simp only [Prod.mk.injEq] at heq
          obtain ⟨rfl, rfl⟩ := heq
          exact hgs k ts (List.mem_cons_self _ _) s hs
        · exact addToGroup_from P k1 t ht rest
            (fun k2 ts2 hm => hgs k2 ts2 (List.mem_cons_of_mem _ hm)) k ts hr s hs

theorem foldl_gStep_from (P : String → Prop) :
    ∀ (tags : List String) (gs : List ((Nat × Nat) × List String)),
      (∀ k ts, (k, ts) ∈ gs → ∀ s ∈ ts, P s) →
      (∀ t ∈ tags, P t) →
      ∀ k ts, (k, ts) ∈ tags.foldl gStep gs → ∀ s ∈ ts, P s
  | [], _ => fun hgs _ => hgs
  | t :: rest, gs => by
      intro hgs htags
      show ∀ k ts, (k, ts) ∈ rest.foldl gStep (gStep gs t) → ∀ s ∈ ts, P s
      apply foldl_gStep_from P rest (gStep gs t)
      · intro k ts hmem s hs
        unfold gStep at hmem
        cases hp : parseSemver t with
        | none => rw [hp] at hmem; exact hgs k ts hmem s hs
        | some v =>
            rw [hp] at hmem
            exact addToGroup_from P (v.1, v.2.1) t (htags t (List.mem_cons_self _ _)) gs hgs
              k ts hmem s hs
      · intro t2 ht2
        exact htags t2 (List.mem_cons_of_mem _ ht2)

theorem groupTags_from (tags : List String) (k : Nat × Nat) (ts : List String)
    (hmem : (k, ts) ∈ groupTags tags) : ∀ s ∈ ts, s ∈ tags :=
  foldl_gStep_from (· ∈ tags) tags [] (by simp) (fun _ ht => ht) k ts
    (groupTags_eq_foldl tags ▸ hmem)

/-- Named alias of the fold step inside Python `max(key=version.parse)`. -/
def maxStep (cur x : String) : String :=
  if vLt (verKey cur) (verKey x) then x else cur

theorem maxFold_spec :
    ∀ (rest : List String) (cur : String),
      (rest.foldl maxStep cur = cur ∨ rest.foldl maxStep cur ∈ rest)
      ∧ vLe (verKey cur) (verKey (rest.foldl maxStep cur))
      ∧ ∀ x ∈ rest, vLe (verKey x) (verKey (rest.foldl maxStep cur))
  | [], cur => ⟨Or.inl rfl, vLe_refl _, by intro x h; cases h⟩
  | x :: rest, cur => by
      have ih := maxFold_spec rest (maxStep cur x)
      have hcur : vLe (verKey cur) (verKey (maxStep cur x)) := by
        unfold maxStep
        by_cases hlt : vLt (verKey cur) (verKey x)
        · rw [if_pos hlt]; exact vLe_of_vLt hlt
        · rw [if_neg hlt]; exact vLe_refl _
      have hx : vLe (verKey x) (verKey (maxStep cur x)) := by
        unfold maxStep
        by_cases hlt : vLt (verKey cur) (verKey x)
        · rw [if_pos hlt]; exact vLe_refl _
        · rw [if_neg hlt]; exact vLe_of_not_vLt hlt
      refine ⟨?_, ?_, ?_⟩
      · rcases ih.1 with h | h
        · by_cases hlt : vLt (verKey cur) (verKey x)
          · refine Or.inr ?_
            show List.foldl maxStep (maxStep cur x) rest ∈ x :: rest
            rw [h]
            unfold maxStep
            rw [if_pos hlt]
            exact List.mem_cons_self _ _
          · refine Or.inl ?_
            show List.foldl maxStep (maxStep cur x) rest = cur
            rw [h]
            unfold maxStep
            rw [if_neg hlt]
        · exact Or.inr (List.mem_cons_of_mem _ h)
      · exact vLe_trans _ _ _ hcur ih.2.1
      · intro y hy
        rcases List.mem_cons.mp hy with heq | hyr
        · subst heq
          exact vLe_trans _ _ _ hx ih.2.1
        · exact ih.2.2 y hyr

theorem pyMaxByVer_spec (ts : List String) (u : String) (h : pyMaxByVer ts = some u) :
    u ∈ ts ∧ ∀ x ∈ ts, vLe (verKey x) (verKey u) := by
  cases ts with
  | nil => cases h
  | cons t rest =>
      have hu : rest.foldl maxStep t = u := by
        unfold pyMaxByVer at h
        exact Option.some.inj h
      subst hu
      obtain ⟨hmem, hcurle, hall⟩ := maxFold_spec rest t
      constructor
      · rcases hmem with h2 | h2
        · rw [h2]; exact List.mem_cons_self _ _
        · exact List.mem_cons_of_mem _ h2
      · intro x hx
        rcases List.mem_cons.mp hx with rfl | hxr
        · exact hcurle
        · exact hall x hxr

theorem mmOf_isSome {u : String} {k : Nat × Nat} (h : mmOf u = some k) :
    (parseSemver u).isSome = true := by
  unfold mmOf at h
  obtain ⟨v, hv, -⟩ := Option.map_eq_some'.mp h
  rw [hv]
  rfl

/-- C5: on any list of filtered semver tags (all of which the strict
parser accepts, matching the inputs Python feeds it), the output of
`select_versions_smart` (i) consists of input tags, (ii) has at most one
representative per distinct `(major, minor)` pair, (iii) each
representative dominates, under numeric semantic-version comparison, every
input sharing its `(major, minor)` pair, (iv) is strictly ascending by
`(major, minor, patch)`, and (v) is reproduced identically on a re-run
(the function is pure). -/
theorem C5_select_versions (tags : List String)
    (h : ∀ t ∈ tags, (parseSemver t).isSome = true) :
    (∀ u ∈ select_versions_smart tags, u ∈ tags ∧ (parseSemver u).isSome = true)
    ∧ (select_versions_smart tags).Pairwise (fun a b => mmOf a ≠ mmOf b)
    ∧ (∀ u ∈ select_versions_smart tags, ∀ s ∈ tags,
        mmOf s = mmOf u → vLe (verKey s) (verKey u))
    ∧ (select_versions_smart tags).Pairwise (fun a b => vLt (verKey a) (verKey b))
    ∧ select_versions_smart tags = select_versions_smart tags := by
  have hkeys := groupTags_keys_distinct tags
  have hout_mem : ∀ u, u ∈ select_versions_smart tags ↔
      u ∈ (groupTags tags).filterMap (fun g => pyMaxByVer g.2) := by
    intro u
    exact List.mem_insertionSort tagLe
  have hrepOf : ∀ u ∈ select_versions_smart tags,
      ∃ g, g ∈ groupTags tags ∧ pyMaxByVer g.2 = some u := by
    intro u hu
    obtain ⟨g, hg, hmax⟩ := List.mem_filterMap.mp ((hout_mem u).mp hu)
    exact ⟨g, hg, hmax⟩
  have hd : ∀ u ∈ select_versions_smart tags, u ∈ tags ∧ (parseSemver u).isSome = true := by
    intro u hu
    obtain ⟨g, hg, hmax⟩ := hrepOf u hu
    have humem := (pyMaxByVer_spec g.2 u hmax).1
    have hmm : mmOf u = some g.1 := groupTags_sound tags g.1 g.2 hg u humem
    exact ⟨groupTags_from tags g.1 g.2 hg u humem, mmOf_isSome hmm⟩
  have hrep_pair : ((groupTags tags).filterMap (fun g => pyMaxByVer g.2)).Pairwise
      (fun a b => mmOf a ≠ mmOf b) := by
    rw [List.pairwise_filterMap]
    refine List.Pairwise.imp_of_mem ?_ hkeys
    intro g g2 hg hg2 hne b hb b2 hb2
    have hbmax : pyMaxByVer g.2 = some b := hb
    have hb2max : pyMaxByVer g2.2 = some b2 := hb2
    have hmm1 : mmOf b = some g.1 :=
      groupTags_sound tags g.1 g.2 hg b (pyMaxByVer_spec g.2 b hbmax).1
    have hmm2 : mmOf b2 = some g2.1 :=
      groupTags_sound tags g2.1 g2.2 hg2 b2 (pyMaxByVer_spec g2.2 b2 hb2max).1
    rw [hmm1, hmm2]
    intro hcontra
    exact hne (Option.some.inj hcontra)
  have hpa : (select_versions_smart tags).Pairwise (fun a b => mmOf a ≠ mmOf b) := by
    have hperm : List.Perm (select_versions_smart tags)
        ((groupTags tags).filterMap (fun g => pyMaxByVer g.2)) :=
      List.perm_insertionSort tagLe _
    exact (hperm.pairwise_iff (fun hxy heq => hxy heq.symm)).mpr hrep_pair
  have hsorted : (select_versions_smart tags).Pairwise tagLe :=
    List.sorted_insertionSort tagLe _
  refine ⟨hd, hpa, ?_, ?_, rfl⟩
  · intro u hu s hs hmmEq
    obtain ⟨g, hg, hmax⟩ := hrepOf u hu
    have hspec := pyMaxByVer_spec g.2 u hmax
    have hmmu : mmOf u = some g.1 := groupTags_sound tags g.1 g.2 hg u hspec.1
    have hmms : mmOf s = some g.1 := hmmEq.trans hmmu
    have hmms2 : (parseSemver s).map (fun v => (v.1, v.2.1)) = some g.1 := hmms
    obtain ⟨vs, hvs, hvk⟩ := Option.map_eq_some'.mp hmms2
    obtain ⟨ts, htsmem, hsts⟩ := foldl_gStep_complete tags [] s vs hvs (Or.inl hs)
    rw [hvk] at htsmem
    rw [← groupTags_eq_foldl tags] at htsmem
    have hts_eq : ts = g.2 := groups_unique_key (groupTags tags) hkeys g.1 ts g.2 htsmem hg
    exact hspec.2 s (hts_eq ▸ hsts)
  · have hand := List.Pairwise.and hsorted hpa
    refine List.Pairwise.imp_of_mem ?_ hand
    intro a b ha hb hab
    obtain ⟨hle, hne⟩ := hab
    refine vLt_of_vLe_ne hle ?_
    intro hkeq
    apply hne
    obtain ⟨va, hva⟩ := Option.isSome_iff_exists.mp (hd a ha).2
    obtain ⟨vb, hvb⟩ := Option.isSome_iff_exists.mp (hd b hb).2
    have hka : verKey a = va := by unfold verKey; rw [hva]; rfl
    have hkb : verKey b = vb := by unfold verKey; rw [hvb]; rfl
    unfold mmOf
    rw [hva, hvb]
    rw [hka, hkb] at hkeq
    rw [hkeq]

/-- C5 witness: the statement evaluated on the spec scenario input. -/
theorem C5_witness :
    (∀ u ∈ select_versions_smart ["1.0.0", "1.0.1", "1.0.2", "1.1.0", "2.0.0", "2.0.1"],
        u ∈ ["1.0.0", "1.0.1", "1.0.2", "1.1.0", "2.0.0", "2.0.1"]
        ∧ (parseSemver u).isSome = true)
    ∧ (select_versions_smart ["1.0.0", "1.0.1", "1.0.2", "1.1.0", "2.0.0", "2.0.1"]).Pairwise
        (fun a b => mmOf a ≠ mmOf b)
    ∧ (∀ u ∈ select_versions_smart ["1.0.0", "1.0.1", "1.0.2", "1.1.0", "2.0.0", "2.0.1"],
        ∀ s ∈ ["1.0.0", "1.0.1", "1.0.2", "1.1.0", "2.0.0", "2.0.1"],
        mmOf s = mmOf u → vLe (verKey s) (verKey u))
    ∧ (select_versions_smart ["1.0.0", "1.0.1", "1.0.2", "1.1.0", "2.0.0", "2.0.1"]).Pairwise
        (fun a b => vLt (verKey a) (verKey b))
    ∧ select_versions_smart ["1.0.0", "1.0.1", "1.0.2", "1.1.0", "2.0.0", "2.0.1"]
        = select_versions_smart ["1.0.0", "1.0.1", "1.0.2", "1.1.0", "2.0.0", "2.0.1"] :=
  C5_select_versions ["1.0.0", "1.0.1", "1.0.2", "1.1.0", "2.0.0", "2.0.1"] (by decide)
